import Mathlib

set_option maxHeartbeats 1000000

/-!
Verification development for the Mule `um_packing` / `um_sstpert` C extension
modules (MetOffice/mule).

The repository sources under consideration are the two binding files
`um_packing/lib/um_packing/um_packing.c` and `um_sstpert/lib/um_sstpert/um_sstpert.c`.
The binding control flow (argument handling, byte-swap ordering, allocation
checks, error paths, sector-size padding) is transliterated from that C code.
The external routines it drives (`pio_byteswap`, `read_wgdos_header`,
`cmps_all_wrapper` / `xpnd_all_wrapper`, `sstpert`) ship with the UM library and
are not part of this repository's sources; where a claim depends on their
behaviour they are modelled from the specification, with a doc comment that
says so, or passed in as an opaque function argument when only the binding's
behaviour is at stake.

Fields are modelled as dense grids of rationals (the C uses IEEE doubles; the
quantisation arithmetic of the WGDOS scheme is exact on ℚ), byte buffers as
lists of naturals, and machine integers as ℤ with explicit signed reduction
where a 64-bit word is reinterpreted.
-/

/-- Decidable equality for `Except`, used to evaluate codec runs on concrete
inputs. -/
instance {ε α : Type} [DecidableEq ε] [DecidableEq α] : DecidableEq (Except ε α) := fun a b =>
  match a, b with
  | .error x, .error y =>
    if h : x = y then isTrue (by rw [h]) else isFalse (fun hc => h (by cases hc; rfl))
  | .error _, .ok _ => isFalse (fun hc => by cases hc)
  | .ok _, .error _ => isFalse (fun hc => by cases hc)
  | .ok x, .ok y =>
    if h : x = y then isTrue (by rw [h]) else isFalse (fun hc => h (by cases hc; rfl))

/-- Row record kinds of a WGDOS payload (spec §3 "Row Record", §4.3):
all-missing rows, constant rows carrying one quantised value, and normal rows
carrying the row minimum, a missing-data flag, the per-cell codes and the
per-cell bit width. -/
inductive RowRecord where
  | allMissing : RowRecord
  | const (q : ℤ) : RowRecord
  | normal (base : ℚ) (hasMiss : Bool) (codes : List ℤ) (width : ℕ) : RowRecord
deriving DecidableEq

/-- Error kinds of the codec core (spec §7). -/
inductive CodecErr where
  | shapeMismatch : CodecErr
  | accuracyOverflow : CodecErr
  | truncatedRow : CodecErr
  | corruptRowHeader : CodecErr
deriving DecidableEq

/-- Packed stream: header data (accuracy, cols, rows) followed by the row
records (spec §3 "Packed Stream", §6).  The bit-exact word layout of the
on-disk format is left open by the spec (§9), so the stream is modelled at
record granularity; its serialisation is a fixed injective function of this
structure. -/
structure PackedStream where
  acc : ℤ
  cols : ℕ
  rows : ℕ
  records : List RowRecord
deriving DecidableEq

/-- Packing quantum `2^e` for accuracy exponent `e` (spec glossary). -/
def quantum (e : ℤ) : ℚ := 2 ^ e

/-- Maximum permitted per-cell bit width of a normal row (spec §4.3 caps the
width "e.g. at a fixed bound such as 31"). -/
def maxBits : ℕ := 31

/-- Minimum of a row, used for the row base value (spec §4.3 step 3). -/
def rowMin : List ℚ → ℚ
  | [] => 0
  | x :: xs => xs.foldl min x

/-- True when every element of the list equals its first element. -/
def allEq {α : Type} [DecidableEq α] : List α → Bool
  | [] => true
  | x :: xs => xs.all fun y => decide (y = x)

/-- Per-cell quantisation `round((value - base) / 2^e)` (spec §4.3 step 3). -/
def quantize (e : ℤ) (base v : ℚ) : ℤ := round ((v - base) / quantum e)

/-- Largest code of a row (codes are nonnegative). -/
def maxCode (codes : List ℤ) : ℤ := codes.foldl max 0

/-- Fuel-driven binary length: `bitLen fuel n` is the number of binary digits
of `n`, provided `fuel ≥ n`. -/
def bitLen : ℕ → ℕ → ℕ
  | _, 0 => 0
  | 0, _ + 1 => 0
  | f + 1, n + 1 => bitLen f ((n + 1) / 2) + 1

/-- Minimum bit width `b` with `n < 2^b`. -/
def bitWidth (n : ℕ) : ℕ := bitLen n n

/-- Minimum bit-width sufficient for the largest code of a row; when the row
has missing cells one extra code point is reserved out-of-band within the same
width, so the width must also leave `2^b - 1` unreachable (spec §4.3 step 3). -/
def widthFor (hasMiss : Bool) (codes : List ℤ) : ℕ :=
  if hasMiss then bitWidth ((maxCode codes).toNat + 1) else bitWidth (maxCode codes).toNat

/-- Modelled from the spec: §4.3 Row Packer.  The row-level encoder of the
external WGDOS packer driven by `cmps_all_wrapper`; that packer is not under
`src/`.  Missing cells are the ones equal to `mdi`; an all-missing row gives an
all-missing record, a constant row gives a constant record carrying the single
quantised value, and otherwise every present cell is quantised against the row
minimum, missing cells taking the reserved top code `2^b - 1`. -/
def encodeRow (mdi : ℚ) (e : ℤ) (row : List ℚ) : Except CodecErr RowRecord :=
  let present := row.filter fun v => decide (v ≠ mdi)
  if present = [] then .ok .allMissing
  else if allEq present then .ok (.const (round (present.headD 0 / quantum e)))
  else
    let base := rowMin present
    let hm := row.any fun v => decide (v = mdi)
    let b := widthFor hm (present.map (quantize e base))
    if maxBits < b then .error .accuracyOverflow
    else .ok (.normal base hm (row.map fun v => if v = mdi then 2 ^ b - 1 else quantize e base v) b)

/-- Reconstruction of one cell of a normal row (spec §4.4): the reserved code
gives `mdi` when the row has missing cells, any other code `c` gives
`base + c * 2^e`. -/
def decodeCell (mdi : ℚ) (e : ℤ) (base : ℚ) (hasMiss : Bool) (b : ℕ) (c : ℤ) : ℚ :=
  if hasMiss ∧ c = 2 ^ b - 1 then mdi else base + (c : ℚ) * quantum e

/-- Modelled from the spec: §4.4 Row Unpacker.  The row-level decoder of the
external WGDOS unpacker driven by `xpnd_all_wrapper`; that unpacker is not
under `src/`.  Fails with `truncatedRow` when the record does not carry the
declared number of cells. -/
def decodeRow (mdi : ℚ) (e : ℤ) (cols : ℕ) : RowRecord → Except CodecErr (List ℚ)
  | .allMissing => .ok (List.replicate cols mdi)
  | .const q => .ok (List.replicate cols ((q : ℚ) * quantum e))
  | .normal base hm codes b =>
    if codes.length = cols then .ok (codes.map (decodeCell mdi e base hm b))
    else .error .truncatedRow

/-- Effectful map over `Except`, aborting the whole field on the first
row-level failure (spec §4.5: the whole-field operation is atomic). -/
def mapE {α β : Type} (f : α → Except CodecErr β) : List α → Except CodecErr (List β)
  | [] => .ok []
  | x :: xs =>
    match f x with
    | .error er => .error er
    | .ok y =>
      match mapE f xs with
      | .error er => .error er
      | .ok ys => .ok (y :: ys)

/-- Split a row-major flat grid into `n` consecutive rows of `k` cells. -/
def chunkN {α : Type} : ℕ → ℕ → List α → List (List α)
  | 0, _, _ => []
  | n + 1, k, l => l.take k :: chunkN n k (l.drop k)

/-- Modelled from the spec: §4.5 Field Codec, encode direction (the packer
behind `cmps_all_wrapper`, not under `src/`).  Validates the supplied
dimensions against the field's actual extent (and the §3 invariant
`cols > 0`, `rows > 0`), packs each row in row order and assembles the
stream. -/
def cmps_all (flat : List ℚ) (cols rows : ℕ) (e : ℤ) (mdi : ℚ) : Except CodecErr PackedStream :=
  if 0 < cols ∧ 0 < rows ∧ flat.length = rows * cols then
    match mapE (encodeRow mdi e) (chunkN rows cols flat) with
    | .error er => .error er
    | .ok recs => .ok ⟨e, cols, rows, recs⟩
  else .error .shapeMismatch

/-- Modelled from the spec: §4.5 Field Codec, decode direction (the unpacker
behind `xpnd_all_wrapper`, not under `src/`).  Decodes exactly `rows` row
records against the header's dimensions. -/
def xpnd_all (s : PackedStream) (mdi : ℚ) : Except CodecErr (List (List ℚ)) :=
  if s.records.length = s.rows then mapE (decodeRow mdi s.acc s.cols) s.records
  else .error .truncatedRow

/-- A normal record whose codes are not all identical; such a record decodes to
a row that is not constant, so re-encoding it takes the normal branch again. -/
def collapseFree : RowRecord → Bool
  | .normal _ _ codes _ => !allEq codes
  | _ => true

/-! Binding layer: transliteration of `um_packing.c` and `um_sstpert.c`. -/

/-- Host byte order, as detected by `get_machine_endianism`. -/
inductive Endian where
  | big : Endian
  | little : Endian
deriving DecidableEq

/-- Observable steps of a binding call, in program order: the byte-order
normalisation decision (with the number of whole words it covers), the header
read, the output allocation, the codec calls, the output-array construction,
the outgoing byte swap and the final byte-string copy. -/
inductive Ev where
  | normalize (swapped : Bool) (nwords : ℕ) : Ev
  | readHdr : Ev
  | callocEv : Ev
  | xpndCall : Ev
  | buildArr : Ev
  | cmpsCall : Ev
  | swapOut (swapped : Bool) : Ev
  | formBytes : Ev
deriving DecidableEq

/-- Result of a binding call: a Python-level value, a Python-level error
(`PyErr_SetString` + NULL return), or undefined behaviour (the C dereferences
an invalid pointer). -/
inductive Outcome (α : Type) where
  | ok (a : α) : Outcome α
  | err (msg : String) : Outcome α
  | crash : Outcome α
deriving DecidableEq

/-- A dense numpy array handed back to Python: its two dimensions and its
row-major payload. -/
structure NpyArr where
  r : ℕ
  c : ℕ
  data : List ℚ
deriving DecidableEq

/-- Full observable result of a `wgdos_unpack` call: the Python result, the
final contents of the caller-owned input byte buffer, the event trace, and the
number of internally allocated buffers neither freed nor handed to Python. -/
structure URes where
  res : Outcome NpyArr
  buf : List ℕ
  trace : List Ev
  leaked : ℕ
deriving DecidableEq

/-- Full observable result of a `wgdos_pack` call. -/
structure PRes where
  res : Outcome (List ℕ)
  trace : List Ev
  leaked : ℕ
deriving DecidableEq

/-- Reverse the byte order of each of the first `n` 8-byte words of a buffer;
bytes beyond the `n`-th word are untouched, as is a trailing fragment shorter
than a word. -/
def swabN {α : Type} : ℕ → List α → List α
  | 0, l => l
  | n + 1, b0 :: b1 :: b2 :: b3 :: b4 :: b5 :: b6 :: b7 :: rest =>
    b7 :: b6 :: b5 :: b4 :: b3 :: b2 :: b1 :: b0 :: swabN n rest
  | _ + 1, l => l

/-- Modelled from the spec: §4.1 Endian Normalizer (`pio_byteswap`, not under
`src/`).  Given a word count and a word size it reverses the byte order of
that many words in place and reports status 0; it receives a word count, not a
byte length, so it cannot observe a misaligned buffer length.  Only the 8-byte
word size used by both call sites is modelled. -/
def pio_byteswap (buf : List ℕ) (nwords ws : ℕ) : ℕ × List ℕ :=
  if ws = 8 then (0, swabN nwords buf) else (1, buf)

/-- Value of a word stored most-significant byte first. -/
def beWord (w : List ℕ) : ℕ := w.foldl (fun a b => 256 * a + b % 256) 0

/-- Native value of an 8-byte word on the given host. -/
def wordNat (host : Endian) (w : List ℕ) : ℕ :=
  match host with
  | .big => beWord w
  | .little => beWord w.reverse

/-- Two's-complement reinterpretation of a 64-bit word as a signed integer. -/
def toSigned (n : ℕ) : ℤ := if n < 2 ^ 63 then (n : ℤ) else (n : ℤ) - 2 ^ 64

/-- Native signed 64-bit word number `i` of a byte buffer. -/
def readWord (host : Endian) (buf : List ℕ) (i : ℕ) : ℤ :=
  toSigned (wordNat host ((buf.drop (8 * i)).take 8))

/-- Modelled from the spec: §4.2 Header Codec (`read_wgdos_header`, not under
`src/`).  Reads accuracy, cols and rows from the fixed leading words of the
(already normalised) buffer, failing when the buffer is smaller than the
header or the dimensions are non-positive.  The exact word layout is left open
by the spec (§9); it is modelled as word 0 accuracy, word 1 cols, word 2
rows. -/
def read_wgdos_header (host : Endian) (buf : List ℕ) : Except Unit (ℤ × ℤ × ℤ) :=
  if buf.length < 24 then .error ()
  else
    let acc := readWord host buf 0
    let c := readWord host buf 1
    let r := readWord host buf 2
    if c ≤ 0 ∨ r ≤ 0 then .error () else .ok (acc, c, r)

/-- Write `src` into a fixed-size buffer `dst` from position 0: the buffer
keeps its length, excess source data falls off the end. -/
def writeInto {α : Type} (dst src : List α) : List α := src.take dst.length ++ dst.drop src.length

/-- Transliteration of `wgdos_unpack_py` (`um_packing.c` lines 72–167).
`xpnd_f` stands for the external `xpnd_all_wrapper`: it receives the
normalised buffer, the buffer length in words, cols, rows, accuracy and mdi,
and returns a status plus the cells it wrote into the freshly `calloc`ed
output buffer.  `allocOk` models whether that `calloc` succeeds, `arrayOk`
whether `PyArray_SimpleNewFromData` succeeds.  The byte swap runs in place on
the caller-owned buffer whenever the host is little-endian, before the header
words are read. -/
def wgdos_unpack_py (host : Endian)
    (xpnd_f : List ℕ → ℤ → ℤ → ℤ → ℤ → ℚ → ℤ × List ℚ)
    (allocOk arrayOk : Bool) (bytes_in : List ℕ) (mdi : ℚ) : URes :=
  let n := bytes_in.length
  let sw := decide (host = .little)
  let p := if host = .little then pio_byteswap bytes_in (n / 8) 8 else ((0 : ℕ), bytes_in)
  let ev0 := Ev.normalize sw (n / 8)
  if p.1 ≠ 0 then ⟨.err "Problem in byte-swapping", p.2, [ev0], 0⟩
  else
    match read_wgdos_header host p.2 with
    | .error _ => ⟨.err "Problem reading WGDOS header", p.2, [ev0, .readHdr], 0⟩
    | .ok (acc, c, r) =>
      if allocOk = false then
        ⟨.err "Unable to allocate memory for unpacking", p.2, [ev0, .readHdr, .callocEv], 0⟩
      else
        let x := xpnd_f p.2 ((n : ℤ) / 8) c r acc mdi
        if x.1 ≠ 0 then
          ⟨.err "Problem in xpnd_all", p.2, [ev0, .readHdr, .callocEv, .xpndCall], 0⟩
        else if arrayOk = false then
          ⟨.err "Failed to make numpy array", p.2,
            [ev0, .readHdr, .callocEv, .xpndCall, .buildArr], 0⟩
        else
          ⟨.ok ⟨r.toNat, c.toNat, writeInto (List.replicate (r.toNat * c.toNat) (0 : ℚ)) x.2⟩,
            p.2, [ev0, .readHdr, .callocEv, .xpndCall, .buildArr], 0⟩

/-- Transliteration of `wgdos_pack_py` (`um_packing.c` lines 169–244).
`cmps_f` stands for the external `cmps_all_wrapper`: it receives the field,
`len_comp`, cols, rows, accuracy and mdi, and returns a status, the bytes it
wrote into the `calloc`ed output buffer, and `num_words`, the packed length in
32-bit words.  The C never checks the output `calloc`, so an allocation
failure flows a NULL buffer into the packer: undefined behaviour, modelled as
`crash`.  On the error path of the outgoing byte swap the C omits the `free`,
which the leak ledger records. -/
def wgdos_pack_py (host : Endian)
    (cmps_f : List ℚ → ℕ → ℕ → ℕ → ℤ → ℚ → ℤ × List ℕ × ℕ)
    (allocOk strOk : Bool) (field : List ℚ) (rowsN colsN : ℕ) (mdi : ℚ) (acc : ℤ) : PRes :=
  let lenComp := rowsN * colsN
  if allocOk = false then ⟨.crash, [.callocEv], 0⟩
  else
    let z := cmps_f field lenComp colsN rowsN acc mdi
    if z.1 ≠ 0 then ⟨.err "Problem in cmps_all", [.callocEv, .cmpsCall], 0⟩
    else
      let comp := writeInto (List.replicate (lenComp * 8) (0 : ℕ)) z.2.1
      let nw2 := (z.2.2 + 1) / 2
      let sw := decide (host = .little)
      let q := if host = .little then pio_byteswap comp nw2 8 else ((0 : ℕ), comp)
      if q.1 ≠ 0 then ⟨.err "Problem in byte-swapping", [.callocEv, .cmpsCall, .swapOut sw], 1⟩
      else if strOk = false then
        ⟨.err "Failed to make python string", [.callocEv, .cmpsCall, .swapOut sw, .formBytes], 0⟩
      else ⟨.ok (q.2.take (nw2 * 8)), [.callocEv, .cmpsCall, .swapOut sw, .formBytes], 0⟩

/-- Transliteration of `sstpert_py` (`um_sstpert.c` lines 63–138).  `core`
stands for the external Fortran `sstpert` routine, which fills the output
buffer from the factor, the 8-element date descriptor and the climatology.
The climatology is passed with its three dimensions and row-major data; the
binding requires the final dimension to be 12 and the descriptor to have
exactly 8 elements before allocating the `rows × cols` output. -/
def sstpert_py (core : ℚ → List ℤ → ℕ → ℕ → List ℚ → List ℚ)
    (allocOk arrayOk : Bool) (factor : ℚ) (dt : List ℤ)
    (rowsN colsN months : ℕ) (clim : List ℚ) : Outcome NpyArr :=
  if months ≠ 12 then .err "Climatology must have a final dimension of 12"
  else if dt.length ≠ 8 then .err "Date array must have 8 elements"
  else if allocOk = false then .err "Unable to allocate memory for sstpert"
  else
    let dataout := writeInto (List.replicate (rowsN * colsN) (0 : ℚ)) (core factor dt rowsN colsN clim)
    if arrayOk = false then .err "Failed to make numpy array"
    else .ok ⟨rowsN, colsN, dataout⟩

/-! Helper lemmas about the buffer primitives. -/

theorem swabN_length {α : Type} (n : ℕ) (l : List α) : (swabN n l).length = l.length := by
  induction n, l using swabN.induct <;> simp [swabN, *]

theorem swabN_drop {α : Type} (n : ℕ) (l : List α) (h : 8 * n ≤ l.length) :
    (swabN n l).drop (8 * n) = l.drop (8 * n) := by
  induction n, l using swabN.induct with
  | case1 l => simp [swabN]
  | case2 n b0 b1 b2 b3 b4 b5 b6 b7 rest ih =>
    have hlen : 8 * n ≤ rest.length := by simp at h; omega
    simp only [swabN]
    rw [show 8 * (n + 1) = 8 + 8 * n from by ring]
    have e4 : ∀ (t : List α), t.drop (8 + 8 * n) = (t.drop 8).drop (8 * n) :=
      fun t => (List.drop_drop (8 * n) 8 t).symm
    rw [e4, e4]
    have e2 : (b7 :: b6 :: b5 :: b4 :: b3 :: b2 :: b1 :: b0 :: swabN n rest).drop 8 =
        swabN n rest := rfl
    have e3 : (b0 :: b1 :: b2 :: b3 :: b4 :: b5 :: b6 :: b7 :: rest).drop 8 = rest := rfl
    rw [e2, e3]
    exact ih hlen
  | case3 n l hne =>
    rcases l with _ | ⟨b0, _ | ⟨b1, _ | ⟨b2, _ | ⟨b3, _ | ⟨b4, _ | ⟨b5, _ | ⟨b6, _ | ⟨b7, rest⟩⟩⟩⟩⟩⟩⟩⟩
    · rfl
    · rfl
    · rfl
    · rfl
    · rfl
    · rfl
    · rfl
    · rfl
    · exact (hne b0 b1 b2 b3 b4 b5 b6 b7 rest rfl).elim

theorem writeInto_length {α : Type} (dst src : List α) :
    (writeInto dst src).length = dst.length := by
  simp [writeInto]
  omega

/-- Final state of the caller-owned buffer after any decode call: word-wise
byte-reversed prefix on a little-endian host, untouched on a big-endian one. -/
theorem unpack_buf_eq (host : Endian) (xf : List ℕ → ℤ → ℤ → ℤ → ℤ → ℚ → ℤ × List ℚ)
    (aOk arOk : Bool) (b : List ℕ) (mdi : ℚ) :
    (wgdos_unpack_py host xf aOk arOk b mdi).buf =
      if host = Endian.little then swabN (b.length / 8) b else b := by
  cases host <;>
    · simp only [wgdos_unpack_py, pio_byteswap]
      simp
      split <;> (try rfl) <;> split_ifs <;> rfl

/-- C10 (amended): on a little-endian host every decode call — failing or
successful — leaves the caller's input buffer equal to the word-wise byte
reversal of its whole-word prefix, applied in place and never restored; the
bytes therefore differ from the input exactly when that reversal changes the
buffer, not unconditionally. -/
theorem claim10_swab_in_place (xf : List ℕ → ℤ → ℤ → ℤ → ℤ → ℚ → ℤ × List ℚ)
    (aOk arOk : Bool) (b : List ℕ) (mdi : ℚ) :
    (wgdos_unpack_py Endian.little xf aOk arOk b mdi).buf = swabN (b.length / 8) b := by
  rw [unpack_buf_eq]
  simp

/-- C10 counterexample: a little-endian decode call on a buffer whose single
word is byte-palindromic (all zero bytes) returns with the caller's bytes
identical to what was passed in, refuting the claim that the input bytes
always differ after the call. -/
theorem claim10_counterexample :
    (wgdos_unpack_py Endian.little (fun _ _ _ _ _ _ => ((0 : ℤ), ([] : List ℚ))) true true
        [0, 0, 0, 0, 0, 0, 0, 0] 0).buf = [0, 0, 0, 0, 0, 0, 0, 0] := by decide

/-- C4 (amended): after a decode call fails, the caller's buffer is unchanged
on a big-endian host, while on a little-endian host it has been byte-swapped
in place (word-wise reversal of its whole-word prefix) and is not restored;
the encode path reads but never writes the caller's field. -/
theorem claim4_failed_buffer (host : Endian) (xf : List ℕ → ℤ → ℤ → ℤ → ℤ → ℚ → ℤ × List ℚ)
    (aOk arOk : Bool) (b : List ℕ) (mdi : ℚ) (msg : String)
    (h : (wgdos_unpack_py host xf aOk arOk b mdi).res = Outcome.err msg) :
    (wgdos_unpack_py host xf aOk arOk b mdi).buf =
      if host = Endian.little then swabN (b.length / 8) b else b :=
  unpack_buf_eq host xf aOk arOk b mdi

theorem claim4_failed_buffer_witness :
    (wgdos_unpack_py Endian.little (fun _ _ _ _ _ _ => ((0 : ℤ), ([] : List ℚ))) true true
        [1, 0, 0, 0, 0, 0, 0, 0] 0).res = Outcome.err "Problem reading WGDOS header" ∧
    (wgdos_unpack_py Endian.little (fun _ _ _ _ _ _ => ((0 : ℤ), ([] : List ℚ))) true true
        [1, 0, 0, 0, 0, 0, 0, 0] 0).buf =
      if Endian.little = Endian.little then
        swabN (([1, 0, 0, 0, 0, 0, 0, 0] : List ℕ).length / 8) [1, 0, 0, 0, 0, 0, 0, 0]
      else [1, 0, 0, 0, 0, 0, 0, 0] :=
  ⟨by decide,
    claim4_failed_buffer Endian.little (fun _ _ _ _ _ _ => ((0 : ℤ), ([] : List ℚ))) true true
      [1, 0, 0, 0, 0, 0, 0, 0] 0 "Problem reading WGDOS header" (by decide)⟩

/-- C4 counterexample: a failing little-endian decode call (the header read
rejects the 8-byte buffer) returns with the caller's input bytes changed: the
in-place byte swap of the first word is still visible after the error. -/
theorem claim4_counterexample :
    (wgdos_unpack_py Endian.little (fun _ _ _ _ _ _ => ((0 : ℤ), ([] : List ℚ))) true true
        [1, 0, 0, 0, 0, 0, 0, 0] 0).res = Outcome.err "Problem reading WGDOS header" ∧
    (wgdos_unpack_py Endian.little (fun _ _ _ _ _ _ => ((0 : ℤ), ([] : List ℚ))) true true
        [1, 0, 0, 0, 0, 0, 0, 0] 0).buf ≠ [1, 0, 0, 0, 0, 0, 0, 0] := by decide

/-- C3 (amended): when the buffer length is not a multiple of the 8-byte word
width, the normalisation step does not fail (the word count handed to the
byte-swapper is the truncating division `n / 8`, so no length error is even
representable): the whole-word prefix is silently byte-swapped and the
trailing bytes are passed through untouched. -/
theorem claim3_misaligned (xf : List ℕ → ℤ → ℤ → ℤ → ℤ → ℚ → ℤ × List ℚ)
    (aOk arOk : Bool) (b : List ℕ) (mdi : ℚ) (h : b.length % 8 ≠ 0) :
    (wgdos_unpack_py Endian.little xf aOk arOk b mdi).res ≠
      Outcome.err "Problem in byte-swapping" ∧
    (wgdos_unpack_py Endian.little xf aOk arOk b mdi).buf.drop (8 * (b.length / 8)) =
      b.drop (8 * (b.length / 8)) := by
  constructor
  · simp only [wgdos_unpack_py, pio_byteswap]
    simp
    split <;> (try simp) <;> split_ifs <;> simp
  · rw [unpack_buf_eq]
    simp only [if_pos rfl]
    exact swabN_drop _ _ (by have := Nat.div_mul_le_self b.length 8; omega)

theorem claim3_misaligned_witness :
    (wgdos_unpack_py Endian.little (fun _ _ _ _ _ _ => ((0 : ℤ), ([] : List ℚ))) true true
        [1, 0, 0, 0, 0, 0, 0, 0, 5] 0).res ≠ Outcome.err "Problem in byte-swapping" ∧
    (wgdos_unpack_py Endian.little (fun _ _ _ _ _ _ => ((0 : ℤ), ([] : List ℚ))) true true
        [1, 0, 0, 0, 0, 0, 0, 0, 5] 0).buf.drop
        (8 * (([1, 0, 0, 0, 0, 0, 0, 0, 5] : List ℕ).length / 8)) =
      ([1, 0, 0, 0, 0, 0, 0, 0, 5] : List ℕ).drop
        (8 * (([1, 0, 0, 0, 0, 0, 0, 0, 5] : List ℕ).length / 8)) :=
  claim3_misaligned (fun _ _ _ _ _ _ => ((0 : ℤ), ([] : List ℚ))) true true
    [1, 0, 0, 0, 0, 0, 0, 0, 5] 0 (by decide)

/-- C3 counterexample: a 25-byte buffer (not a multiple of 8) is decoded
without any length error: the call runs to completion and returns a field,
having byte-swapped the three whole words and left the trailing byte
untouched — no `InvalidLength` failure occurs at the normalisation step. -/
theorem claim3_counterexample :
    ([0, 0, 0, 0, 0, 0, 0, 0, 0, 0, 0, 0, 0, 0, 0, 1, 0, 0, 0, 0, 0, 0, 0, 1,
        9] : List ℕ).length % 8 = 1 ∧
    (wgdos_unpack_py Endian.little (fun _ _ _ _ _ _ => ((0 : ℤ), ([(0 : ℚ)]))) true true
        [0, 0, 0, 0, 0, 0, 0, 0, 0, 0, 0, 0, 0, 0, 0, 1, 0, 0, 0, 0, 0, 0, 0, 1, 9] 0).res =
      Outcome.ok ⟨1, 1, [0]⟩ ∧
    (wgdos_unpack_py Endian.little (fun _ _ _ _ _ _ => ((0 : ℤ), ([(0 : ℚ)]))) true true
        [0, 0, 0, 0, 0, 0, 0, 0, 0, 0, 0, 0, 0, 0, 0, 1, 0, 0, 0, 0, 0, 0, 0, 1, 9] 0).buf =
      [0, 0, 0, 0, 0, 0, 0, 0, 1, 0, 0, 0, 0, 0, 0, 0, 1, 0, 0, 0, 0, 0, 0, 0, 9] := by
  decide

/-- C2: on every decode call the byte-order normalisation decision (covering
the buffer's whole-word extent, which includes the header words) is the first
observable step, before any header field is read; on every encode call that
produces a byte stream, the outgoing normalisation runs after the packer has
fully assembled the payload, and only the final byte-string copy follows
it. -/
theorem claim2_normalize_order :
    (∀ (host : Endian) (xf : List ℕ → ℤ → ℤ → ℤ → ℤ → ℚ → ℤ × List ℚ)
      (aOk arOk : Bool) (b : List ℕ) (mdi : ℚ),
      (wgdos_unpack_py host xf aOk arOk b mdi).trace.head? =
        some (Ev.normalize (decide (host = Endian.little)) (b.length / 8))) ∧
    (∀ (host : Endian) (cf : List ℚ → ℕ → ℕ → ℕ → ℤ → ℚ → ℤ × List ℕ × ℕ)
      (aOk sOk : Bool) (f : List ℚ) (rN cN : ℕ) (mdi : ℚ) (acc : ℤ) (out : List ℕ),
      (wgdos_pack_py host cf aOk sOk f rN cN mdi acc).res = Outcome.ok out →
      (wgdos_pack_py host cf aOk sOk f rN cN mdi acc).trace =
        [Ev.callocEv, Ev.cmpsCall, Ev.swapOut (decide (host = Endian.little)),
          Ev.formBytes]) := by
  constructor
  · intro host xf aOk arOk b mdi
    cases host <;>
      · simp only [wgdos_unpack_py, pio_byteswap]
        simp
        split <;> (try rfl) <;> split_ifs <;> rfl
  · intro host cf aOk sOk f rN cN mdi acc out h
    cases host <;>
      · simp only [wgdos_pack_py, pio_byteswap] at h ⊢
        simp at h ⊢
        split_ifs at h ⊢ <;> simp_all

theorem claim2_normalize_order_witness :
    (wgdos_unpack_py Endian.big (fun _ _ _ _ _ _ => ((0 : ℤ), ([] : List ℚ))) true true
        [] 0).trace.head? =
      some (Ev.normalize (decide ((Endian.big : Endian) = Endian.little)) (([] : List ℕ).length / 8)) ∧
    (wgdos_pack_py Endian.big (fun _ _ _ _ _ _ => ((0 : ℤ), ([] : List ℕ), 1)) true true
        [0] 1 1 0 0).trace =
      [Ev.callocEv, Ev.cmpsCall, Ev.swapOut (decide ((Endian.big : Endian) = Endian.little)),
        Ev.formBytes] :=
  ⟨claim2_normalize_order.1 Endian.big (fun _ _ _ _ _ _ => ((0 : ℤ), ([] : List ℚ))) true true [] 0,
    claim2_normalize_order.2 Endian.big (fun _ _ _ _ _ _ => ((0 : ℤ), ([] : List ℕ), 1)) true true
      [0] 1 1 0 0 (List.replicate 8 0) (by decide)⟩

/-- C5: every failing encode or decode call returns with no partial result (an
error carries no field and no byte stream) and with every internally
allocated buffer either freed or never obtained — the leak ledger is empty on
every reachable error path of both bindings. -/
theorem claim5_no_leak_on_error :
    (∀ (host : Endian) (xf : List ℕ → ℤ → ℤ → ℤ → ℤ → ℚ → ℤ × List ℚ)
      (aOk arOk : Bool) (b : List ℕ) (mdi : ℚ) (msg : String),
      (wgdos_unpack_py host xf aOk arOk b mdi).res = Outcome.err msg →
      (wgdos_unpack_py host xf aOk arOk b mdi).leaked = 0) ∧
    (∀ (host : Endian) (cf : List ℚ → ℕ → ℕ → ℕ → ℤ → ℚ → ℤ × List ℕ × ℕ)
      (aOk sOk : Bool) (f : List ℚ) (rN cN : ℕ) (mdi : ℚ) (acc : ℤ) (msg : String),
      (wgdos_pack_py host cf aOk sOk f rN cN mdi acc).res = Outcome.err msg →
      (wgdos_pack_py host cf aOk sOk f rN cN mdi acc).leaked = 0) := by
  constructor
  · intro host xf aOk arOk b mdi msg h
    cases host <;>
      · simp only [wgdos_unpack_py, pio_byteswap] at h ⊢
        simp at h ⊢
        split at h <;> (try rfl) <;> split_ifs at h <;> simp_all
  · intro host cf aOk sOk f rN cN mdi acc msg h
    cases host <;>
      · simp only [wgdos_pack_py, pio_byteswap] at h ⊢
        simp at h ⊢
        split_ifs at h ⊢ <;> simp_all

theorem claim5_no_leak_on_error_witness :
    (wgdos_unpack_py Endian.little (fun _ _ _ _ _ _ => ((0 : ℤ), ([] : List ℚ))) true true
        [] 0).leaked = 0 ∧
    (wgdos_pack_py Endian.little (fun _ _ _ _ _ _ => ((1 : ℤ), ([] : List ℕ), 0)) true true
        [0] 1 1 0 0).leaked = 0 :=
  ⟨claim5_no_leak_on_error.1 Endian.little (fun _ _ _ _ _ _ => ((0 : ℤ), ([] : List ℚ)))
      true true [] 0 "Problem reading WGDOS header" (by decide),
    claim5_no_leak_on_error.2 Endian.little (fun _ _ _ _ _ _ => ((1 : ℤ), ([] : List ℕ), 0))
      true true [0] 1 1 0 0 "Problem in cmps_all" (by decide)⟩

/-- C7: every successful encode returns a byte stream whose length is a whole
multiple of 8 bytes: the binding rounds the packer's 32-bit word count
`num_words` up to an even count, `(num_words + 1) / 2` 8-byte words, before
copying the stream out. -/
theorem claim7_word_aligned (host : Endian)
    (cf : List ℚ → ℕ → ℕ → ℕ → ℤ → ℚ → ℤ × List ℕ × ℕ)
    (aOk sOk : Bool) (f : List ℚ) (rN cN : ℕ) (mdi : ℚ) (acc : ℤ) (out : List ℕ)
    (h : (wgdos_pack_py host cf aOk sOk f rN cN mdi acc).res = Outcome.ok out) :
    out.length % 8 = 0 := by
  cases host <;>
    · simp only [wgdos_pack_py, pio_byteswap] at h
      simp at h
      split_ifs at h <;> simp_all
      all_goals
        rw [← h]
        simp [swabN_length, writeInto_length]
        omega

theorem claim7_word_aligned_witness :
    (List.replicate 8 (0 : ℕ)).length % 8 = 0 :=
  claim7_word_aligned Endian.big (fun _ _ _ _ _ _ => ((0 : ℤ), ([] : List ℕ), 1)) true true
    [0] 1 1 0 0 (List.replicate 8 0) (by decide)

/-- C8 (code evaluated at the failing input): when the output allocation
fails, the decode binding checks its `calloc` and reports the allocation
failure, but the encode binding never checks its `calloc` (um_packing.c lines
192–195) and drives the packer into the NULL buffer — undefined behaviour
instead of a reported `AllocationFailure`. -/
theorem claim8_allocation_eval :
    (wgdos_unpack_py Endian.big (fun _ _ _ _ _ _ => ((0 : ℤ), ([] : List ℚ))) false true
        [0, 0, 0, 0, 0, 0, 0, 0, 0, 0, 0, 0, 0, 0, 0, 1, 0, 0, 0, 0, 0, 0, 0, 1] 0).res =
      Outcome.err "Unable to allocate memory for unpacking" ∧
    (wgdos_pack_py Endian.big (fun _ _ _ _ _ _ => ((0 : ℤ), ([] : List ℕ), 1)) false true
        [0] 1 1 0 0).res = Outcome.crash := by
  decide

/-- C9: the perturbation-generation entry point takes a factor, an 8-element
date/ensemble descriptor and a 3-dimensional climatology whose final
dimension must be 12, and (when its allocations succeed) returns a dense
2-dimensional grid shaped like the climatology's first two dimensions; it
fails with an error and returns no grid whenever the descriptor does not have
exactly 8 elements or the final dimension is not 12. -/
theorem claim9_sstpert (core : ℚ → List ℤ → ℕ → ℕ → List ℚ → List ℚ)
    (aOk arOk : Bool) (factor : ℚ) (dt : List ℤ) (rN cN m : ℕ) (clim : List ℚ) :
    (m = 12 → dt.length = 8 → aOk = true → arOk = true →
      ∃ arr, sstpert_py core aOk arOk factor dt rN cN m clim = Outcome.ok arr ∧
        arr.r = rN ∧ arr.c = cN ∧ arr.data.length = rN * cN) ∧
    (dt.length ≠ 8 ∨ m ≠ 12 →
      ∃ msg, sstpert_py core aOk arOk factor dt rN cN m clim = Outcome.err msg) := by
  constructor
  · intro h12 h8 ha har
    subst ha har
    refine ⟨⟨rN, cN, writeInto (List.replicate (rN * cN) (0 : ℚ)) (core factor dt rN cN clim)⟩,
      ?_, rfl, rfl, ?_⟩
    · simp [sstpert_py, h12, h8]
    · simp [writeInto_length]
  · intro hbad
    by_cases h12 : m = 12
    · rcases hbad with h8 | hm
      · exact ⟨"Date array must have 8 elements", by simp [sstpert_py, h12, h8]⟩
      · exact absurd h12 hm
    · exact ⟨"Climatology must have a final dimension of 12", by simp [sstpert_py, h12]⟩

theorem claim9_sstpert_witness :
    (∃ arr, sstpert_py (fun _ _ _ _ _ => []) true true 0 [0, 0, 0, 0, 0, 0, 0, 0] 3 2 12 [] =
        Outcome.ok arr ∧ arr.r = 3 ∧ arr.c = 2 ∧ arr.data.length = 3 * 2) ∧
    (∃ msg, sstpert_py (fun _ _ _ _ _ => []) true true 0 [] 3 2 12 [] = Outcome.err msg) :=
  ⟨(claim9_sstpert (fun _ _ _ _ _ => []) true true 0 [0, 0, 0, 0, 0, 0, 0, 0] 3 2 12 []).1
      rfl rfl rfl rfl,
    (claim9_sstpert (fun _ _ _ _ _ => []) true true 0 [] 3 2 12 []).2 (Or.inl (by decide))⟩

/-- C6: every successful decode returns an array whose two dimensions are
exactly the rows and cols read from the normalised stream's header, with a
payload of exactly rows × cols cells; and the field codec's encode direction
fails with `shapeMismatch` whenever the supplied dimensions disagree with the
field's actual extent. -/
theorem claim6_shape :
    (∀ (host : Endian) (xf : List ℕ → ℤ → ℤ → ℤ → ℤ → ℚ → ℤ × List ℚ)
      (aOk arOk : Bool) (b : List ℕ) (mdi : ℚ) (arr : NpyArr),
      (wgdos_unpack_py host xf aOk arOk b mdi).res = Outcome.ok arr →
      ∃ a c r, read_wgdos_header host (wgdos_unpack_py host xf aOk arOk b mdi).buf =
          Except.ok (a, c, r) ∧
        arr.r = r.toNat ∧ arr.c = c.toNat ∧ arr.data.length = arr.r * arr.c) ∧
    (∀ (flat : List ℚ) (cols rows : ℕ) (e : ℤ) (mdi : ℚ),
      flat.length ≠ rows * cols →
      cmps_all flat cols rows e mdi = Except.error CodecErr.shapeMismatch) := by
  constructor
  · intro host xf aOk arOk b mdi arr h
    rw [unpack_buf_eq]
    cases host <;>
      · simp only [wgdos_unpack_py, pio_byteswap] at h
        simp at h ⊢
        split at h
        case h_1 => simp at h
        case h_2 acc c r heq =>
          split_ifs at h with h1 h2 h3 <;>
            first
              | (simp at h
                 done)
              | (simp only [Outcome.ok.injEq] at h
                 rw [← h]
                 exact ⟨acc, c, r, heq, rfl, rfl, by simp [writeInto_length]⟩)
  · intro flat cols rows e mdi h
    rw [cmps_all, if_neg]
    rintro ⟨h1, h2, h3⟩
    exact h h3

theorem claim6_shape_witness :
    (∃ a c r, read_wgdos_header Endian.big
        (wgdos_unpack_py Endian.big (fun _ _ _ _ _ _ => ((0 : ℤ), ([(0 : ℚ)]))) true true
          [0, 0, 0, 0, 0, 0, 0, 0, 0, 0, 0, 0, 0, 0, 0, 1, 0, 0, 0, 0, 0, 0, 0, 1] 0).buf =
        Except.ok (a, c, r) ∧
      (⟨1, 1, [0]⟩ : NpyArr).r = r.toNat ∧ (⟨1, 1, [0]⟩ : NpyArr).c = c.toNat ∧
      (⟨1, 1, [0]⟩ : NpyArr).data.length = (⟨1, 1, [0]⟩ : NpyArr).r * (⟨1, 1, [0]⟩ : NpyArr).c) ∧
    cmps_all [0] 1 2 0 0 = Except.error CodecErr.shapeMismatch :=
  ⟨claim6_shape.1 Endian.big (fun _ _ _ _ _ _ => ((0 : ℤ), ([(0 : ℚ)]))) true true
      [0, 0, 0, 0, 0, 0, 0, 0, 0, 0, 0, 0, 0, 0, 0, 1, 0, 0, 0, 0, 0, 0, 0, 1] 0
      ⟨1, 1, [0]⟩ (by decide),
    claim6_shape.2 [0] 1 2 0 0 (by decide)⟩

/-! Helper lemmas for the WGDOS codec core. -/

theorem quantum_pos (e : ℤ) : 0 < quantum e := zpow_pos (by norm_num) e

theorem quantum_ne_zero (e : ℤ) : quantum e ≠ 0 := (quantum_pos e).ne'

theorem quantum_half (e : ℤ) : quantum (e - 1) = quantum e / 2 := by
  unfold quantum
  rw [zpow_sub₀ (by norm_num : (2 : ℚ) ≠ 0)]
  norm_num

theorem round_scale_bound (x : ℚ) (e : ℤ) :
    |(round (x / quantum e) : ℚ) * quantum e - x| ≤ quantum (e - 1) := by
  have hq := quantum_pos e
  have h2 : (round (x / quantum e) : ℚ) * quantum e - x
      = (round (x / quantum e) - x / quantum e) * quantum e := by
    rw [sub_mul, div_mul_cancel₀ _ (quantum_ne_zero e)]
  rw [h2, abs_mul, abs_of_pos hq, quantum_half, abs_sub_comm]
  have h1 : |x / quantum e - round (x / quantum e)| ≤ 1 / 2 := abs_sub_round _
  have h3 := mul_le_mul_of_nonneg_right h1 hq.le
  linarith

theorem quantize_base (e : ℤ) (base : ℚ) : quantize e base base = 0 := by
  simp [quantize]

theorem quantize_shift (e : ℤ) (base : ℚ) (c : ℤ) :
    quantize e base (base + (c : ℚ) * quantum e) = c := by
  unfold quantize
  rw [add_sub_cancel_left, mul_div_cancel_right₀ _ (quantum_ne_zero e), round_intCast]

theorem quantize_nonneg (e : ℤ) (base v : ℚ) (h : base ≤ v) : 0 ≤ quantize e base v := by
  unfold quantize
  have h0 : (0 : ℚ) ≤ (v - base) / quantum e := div_nonneg (by linarith) (quantum_pos e).le
  rw [round_eq]
  exact Int.le_floor.mpr (by push_cast; linarith)

theorem foldl_min_le_init (xs : List ℚ) (a : ℚ) : xs.foldl min a ≤ a := by
  induction xs generalizing a with
  | nil => simp
  | cons x t ih => simpa using le_trans (ih (min a x)) (min_le_left a x)

theorem foldl_min_le_mem (xs : List ℚ) (a x : ℚ) (hx : x ∈ xs) : xs.foldl min a ≤ x := by
  induction xs generalizing a with
  | nil => simp at hx
  | cons y t ih =>
    rcases List.mem_cons.mp hx with rfl | h
    · exact le_trans (foldl_min_le_init t (min a x)) (min_le_right a x)
    · exact ih _ h

theorem foldl_min_mem_or (xs : List ℚ) (a : ℚ) : xs.foldl min a = a ∨ xs.foldl min a ∈ xs := by
  induction xs generalizing a with
  | nil => left; rfl
  | cons y t ih =>
    have e1 : List.foldl min a (y :: t) = List.foldl min (min a y) t := rfl
    rcases ih (min a y) with h | h
    · rcases min_choice a y with h2 | h2
      · left; rw [e1, h, h2]
      · right; rw [e1, h, h2]; exact List.mem_cons_self y t
    · right
      refine List.mem_cons_of_mem _ ?_
      rw [e1]
      exact h

theorem rowMin_le (l : List ℚ) (x : ℚ) (hx : x ∈ l) : rowMin l ≤ x := by
  cases l with
  | nil => simp at hx
  | cons y t =>
    rcases List.mem_cons.mp hx with rfl | h
    · exact foldl_min_le_init t x
    · exact foldl_min_le_mem t y x h

theorem rowMin_mem (l : List ℚ) (h : l ≠ []) : rowMin l ∈ l := by
  cases l with
  | nil => exact absurd rfl h
  | cons y t =>
    rcases foldl_min_mem_or t y with h2 | h2
    · rw [rowMin, h2]; exact List.mem_cons_self y t
    · exact List.mem_cons_of_mem _ h2

theorem allEq_cons_iff {α : Type} [DecidableEq α] (x : α) (xs : List α) :
    allEq (x :: xs) = true ↔ ∀ y ∈ xs, y = x := by
  simp [allEq]

theorem allEq_replicate {α : Type} [DecidableEq α] (n : ℕ) (c : α) :
    allEq (List.replicate n c) = true := by
  cases n with
  | zero => rfl
  | succ m =>
    rw [List.replicate_succ, allEq_cons_iff]
    exact fun y hy => List.eq_of_mem_replicate hy

theorem all_decide_map {α β : Type} [DecidableEq α] [DecidableEq β] (f : α → β)
    (hf : Function.Injective f) (x : α) (xs : List α) :
    ((xs.map f).all fun y => decide (y = f x)) = xs.all fun y => decide (y = x) := by
  induction xs with
  | nil => rfl
  | cons z t ih =>
    have hd : decide (f z = f x) = decide (z = x) := decide_eq_decide.mpr hf.eq_iff
    rw [List.map_cons, List.all_cons, List.all_cons, hd, ih]

theorem allEq_map_inj {α β : Type} [DecidableEq α] [DecidableEq β] (f : α → β)
    (hf : Function.Injective f) (l : List α) : allEq (l.map f) = allEq l := by
  cases l with
  | nil => rfl
  | cons x xs =>
    rw [List.map_cons]
    exact all_decide_map f hf x xs

theorem filter_ne_eq_self (mdi : ℚ) (row : List ℚ) (h : ∀ v ∈ row, v ≠ mdi) :
    (row.filter fun v => decide (v ≠ mdi)) = row :=
  List.filter_eq_self.mpr fun a ha => by simpa using h a ha

theorem mapE_ok_iff {α β : Type} (f : α → Except CodecErr β) (l : List α) (m : List β) :
    mapE f l = .ok m ↔ List.Forall₂ (fun a b => f a = .ok b) l m := by
  induction l generalizing m with
  | nil =>
    cases m with
    | nil => simp [mapE]
    | cons z zs => simp [mapE]
  | cons x xs ih =>
    cases hfx : f x with
    | error er =>
      simp only [mapE, hfx]
      constructor
      · intro h; cases h
      · intro h
        rcases List.forall₂_cons_left_iff.mp h with ⟨b, u, hb, _, rfl⟩
        rw [hfx] at hb
        cases hb
    | ok y =>
      cases hm : mapE f xs with
      | error er =>
        simp only [mapE, hfx, hm]
        constructor
        · intro h; cases h
        · intro h
          rcases List.forall₂_cons_left_iff.mp h with ⟨b, u, hb, hrest, rfl⟩
          rw [← ih] at hrest
          rw [hm] at hrest
          cases hrest
      | ok ys =>
        simp only [mapE, hfx, hm]
        cases m with
        | nil =>
          constructor
          · intro h; cases h
          · intro h; cases h
        | cons z zs =>
          rw [List.forall₂_cons]
          constructor
          · intro h
            cases h
            exact ⟨hfx, (ih _).mp hm⟩
          · rintro ⟨hz, hrest⟩
            rw [← ih] at hrest
            rw [hm] at hrest
            cases hrest
            rw [hfx] at hz
            cases hz
            rfl

theorem chunkN_length {α : Type} (n k : ℕ) (l : List α) : (chunkN n k l).length = n := by
  induction n generalizing l with
  | zero => rfl
  | succ m ih => simp [chunkN, ih]

theorem chunkN_subset {α : Type} (n k : ℕ) (l : List α) (r : List α) (hr : r ∈ chunkN n k l) :
    ∀ v ∈ r, v ∈ l := by
  induction n generalizing l with
  | zero => simp [chunkN] at hr
  | succ m ih =>
    simp only [chunkN, List.mem_cons] at hr
    rcases hr with rfl | hr
    · exact fun v hv => List.mem_of_mem_take hv
    · exact fun v hv => List.mem_of_mem_drop (ih (l.drop k) hr v hv)

theorem chunkN_row_length {α : Type} (n k : ℕ) (l : List α) (h : l.length = n * k) :
    ∀ r ∈ chunkN n k l, r.length = k := by
  induction n generalizing l with
  | zero => simp [chunkN]
  | succ m ih =>
    intro r hr
    have hnk : (m + 1) * k = m * k + k := by ring
    simp only [chunkN, List.mem_cons] at hr
    rcases hr with rfl | hr
    · rw [List.length_take]
      omega
    · exact ih (l.drop k) (by rw [List.length_drop]; omega) r hr

theorem chunkN_flatten {α : Type} (n k : ℕ) (l : List α) (h : l.length = n * k) :
    (chunkN n k l).flatten = l := by
  induction n generalizing l with
  | zero =>
    have : l = [] := List.length_eq_zero.mp (by omega)
    rw [this]
    rfl
  | succ m ih =>
    have hnk : (m + 1) * k = m * k + k := by ring
    simp only [chunkN, List.flatten_cons]
    rw [ih (l.drop k) (by rw [List.length_drop]; omega)]
    exact List.take_append_drop k l

theorem chunkN_of_flatten {α : Type} (n k : ℕ) (D : List (List α)) (hn : D.length = n)
    (hk : ∀ r ∈ D, r.length = k) : chunkN n k D.flatten = D := by
  induction D generalizing n with
  | nil =>
    subst hn
    rfl
  | cons r t ih =>
    subst hn
    have hr : r.length = k := hk r (List.mem_cons_self r t)
    simp only [List.length_cons, chunkN, List.flatten_cons]
    rw [List.take_left' hr, List.drop_left' hr]
    rw [ih t.length rfl fun q hq => hk q (List.mem_cons_of_mem r hq)]

theorem flatten_length_uniform {α : Type} (k : ℕ) (D : List (List α))
    (hk : ∀ r ∈ D, r.length = k) : D.flatten.length = D.length * k := by
  induction D with
  | nil => simp
  | cons r t ih =>
    simp only [List.flatten_cons, List.length_append, List.length_cons]
    rw [hk r (List.mem_cons_self r t), ih fun q hq => hk q (List.mem_cons_of_mem r hq)]
    ring

theorem decodeRow_length (mdi : ℚ) (e : ℤ) (cols : ℕ) (rec : RowRecord) (d : List ℚ)
    (h : decodeRow mdi e cols rec = .ok d) : d.length = cols := by
  cases rec with
  | allMissing =>
    simp only [decodeRow, Except.ok.injEq] at h
    rw [← h, List.length_replicate]
  | const q =>
    simp only [decodeRow, Except.ok.injEq] at h
    rw [← h, List.length_replicate]
  | normal base hm codes b =>
    simp only [decodeRow] at h
    split_ifs at h with hc
    simp only [Except.ok.injEq] at h
    rw [← h, List.length_map]
    exact hc

theorem forall₂_map_self {α β : Type} (R : α → β → Prop) (g : α → β) (l : List α)
    (h : ∀ x ∈ l, R x (g x)) : List.Forall₂ R l (l.map g) := by
  induction l with
  | nil => exact .nil
  | cons x xs ih =>
    exact .cons (h x (List.mem_cons_self x xs))
      (ih fun y hy => h y (List.mem_cons_of_mem x hy))

theorem forall₂_replicate {α β : Type} (R : α → β → Prop) (l : List α) (n : ℕ) (c : β)
    (hn : l.length = n) (h : ∀ x ∈ l, R x c) : List.Forall₂ R l (List.replicate n c) := by
  induction l generalizing n with
  | nil =>
    subst hn
    exact .nil
  | cons x xs ih =>
    subst hn
    rw [List.length_cons, List.replicate_succ]
    exact .cons (h x (List.mem_cons_self x xs))
      (ih xs.length rfl fun y hy => h y (List.mem_cons_of_mem x hy))

theorem any_eq_mdi_false (mdi : ℚ) (row : List ℚ) (h : ∀ v ∈ row, v ≠ mdi) :
    (row.any fun v => decide (v = mdi)) = false := by
  rw [List.any_eq_false]
  intro x hx
  simpa using h x hx

theorem encodeRow_const_char (mdi : ℚ) (e : ℤ) (row : List ℚ) (hne : row ≠ [])
    (hnm : ∀ v ∈ row, v ≠ mdi) (hall : allEq row = true) :
    encodeRow mdi e row = .ok (.const (round (row.headD 0 / quantum e))) := by
  unfold encodeRow
  simp only [filter_ne_eq_self mdi row hnm]
  rw [if_neg hne, if_pos hall]

theorem encodeRow_normal_char (mdi : ℚ) (e : ℤ) (row : List ℚ) (hne : row ≠ [])
    (hnm : ∀ v ∈ row, v ≠ mdi) (hall : allEq row = false) :
    encodeRow mdi e row =
      (if maxBits < widthFor false (row.map (quantize e (rowMin row))) then
        Except.error CodecErr.accuracyOverflow
      else
        Except.ok (RowRecord.normal (rowMin row) false (row.map (quantize e (rowMin row)))
          (widthFor false (row.map (quantize e (rowMin row)))))) := by
  unfold encodeRow
  simp only [filter_ne_eq_self mdi row hnm]
  rw [if_neg hne, if_neg (by rw [hall]; exact Bool.false_ne_true)]
  rw [any_eq_mdi_false mdi row hnm]
  rw [List.map_congr_left fun v hv => if_neg (hnm v hv)]

theorem decodeCell_plain (mdi : ℚ) (e : ℤ) (base : ℚ) (b : ℕ) (c : ℤ) :
    decodeCell mdi e base false b c = base + (c : ℚ) * quantum e := by
  simp [decodeCell]

/-- Per-row round-trip with error bound: a row without missing values that
encodes successfully decodes to a row of the same length whose every cell is
within `2^(e-1)` of the original (spec §4.4, §8). -/
theorem encodeRow_decodeRow (mdi : ℚ) (e : ℤ) (row : List ℚ) (cols : ℕ)
    (hlen : row.length = cols) (hc : 0 < cols) (hnm : ∀ v ∈ row, v ≠ mdi)
    (rec : RowRecord) (h : encodeRow mdi e row = .ok rec) :
    ∃ d, decodeRow mdi e cols rec = .ok d ∧
      List.Forall₂ (fun a b => |b - a| ≤ quantum (e - 1)) row d := by
  have hne : row ≠ [] := by
    intro h0
    rw [h0] at hlen
    simp at hlen
    omega
  by_cases hall : allEq row = true
  · rw [encodeRow_const_char mdi e row hne hnm hall] at h
    simp only [Except.ok.injEq] at h
    subst h
    refine ⟨List.replicate cols (((round (row.headD 0 / quantum e)) : ℚ) * quantum e), rfl, ?_⟩
    refine forall₂_replicate _ row cols _ hlen fun x hx => ?_
    cases row with
    | nil => exact absurd rfl hne
    | cons y t =>
      have hx' : x = y := by
        rcases List.mem_cons.mp hx with rfl | hmem
        · rfl
        · exact (allEq_cons_iff y t).mp hall x hmem
      subst hx'
      simpa using round_scale_bound x e
  · have hall' : allEq row = false := Bool.eq_false_iff.mpr hall
    rw [encodeRow_normal_char mdi e row hne hnm hall'] at h
    split_ifs at h with hov
    simp only [Except.ok.injEq] at h
    subst h
    refine ⟨(row.map (quantize e (rowMin row))).map
      (decodeCell mdi e (rowMin row) false (widthFor false (row.map (quantize e (rowMin row))))),
      ?_, ?_⟩
    · rw [decodeRow, if_pos (by rw [List.length_map]; exact hlen)]
    · rw [List.map_map]
      refine forall₂_map_self _ _ row fun v hv => ?_
      rw [Function.comp_apply, decodeCell_plain]
      have hb := round_scale_bound (v - rowMin row) e
      have e2 : rowMin row + (quantize e (rowMin row) v : ℚ) *
          quantum e - v = (round ((v - rowMin row) / quantum e) : ℚ) *
          quantum e - (v - rowMin row) := by
        unfold quantize
        ring
      rw [e2]
      exact hb

/-- Per-row re-encode stability: a decoded row whose cells avoid `mdi` and
whose record did not collapse to a constant re-encodes to exactly the record
it came from. -/
theorem decodeRow_encodeRow (mdi : ℚ) (e : ℤ) (row : List ℚ) (cols : ℕ)
    (hlen : row.length = cols) (hc : 0 < cols) (hnm : ∀ v ∈ row, v ≠ mdi)
    (rec : RowRecord) (d : List ℚ)
    (henc : encodeRow mdi e row = .ok rec) (hdec : decodeRow mdi e cols rec = .ok d)
    (hdm : ∀ v ∈ d, v ≠ mdi) (hcf : collapseFree rec = true) :
    encodeRow mdi e d = .ok rec := by
  have hne : row ≠ [] := by
    intro h0
    rw [h0] at hlen
    simp at hlen
    omega
  by_cases hall : allEq row = true
  · rw [encodeRow_const_char mdi e row hne hnm hall] at henc
    simp only [Except.ok.injEq] at henc
    subst henc
    simp only [decodeRow, Except.ok.injEq] at hdec
    subst hdec
    obtain ⟨m, rfl⟩ : ∃ m, cols = m + 1 := ⟨cols - 1, by omega⟩
    rw [encodeRow_const_char mdi e _ (by simp) hdm (allEq_replicate _ _)]
    congr 2
    rw [List.replicate_succ, List.headD_cons,
      mul_div_cancel_right₀ _ (quantum_ne_zero e), round_intCast]
  · have hall' : allEq row = false := Bool.eq_false_iff.mpr hall
    rw [encodeRow_normal_char mdi e row hne hnm hall'] at henc
    split_ifs at henc with hov
    simp only [Except.ok.injEq] at henc
    subst henc
    simp only [decodeRow, List.length_map, hlen, if_pos] at hdec
    simp only [Except.ok.injEq] at hdec
    subst hdec
    set base := rowMin row with hbase
    set codes := row.map (quantize e base) with hcodes
    set b := widthFor false codes with hb
    set g : ℤ → ℚ := fun c => base + (c : ℚ) * quantum e with hg
    have hdg : codes.map (decodeCell mdi e base false b) = codes.map g := by
      refine List.map_congr_left fun c _ => ?_
      rw [decodeCell_plain]
    rw [hdg] at hdm ⊢
    have hginj : Function.Injective g := by
      intro c1 c2 hcc
      have h1 : (c1 : ℚ) * quantum e = (c2 : ℚ) * quantum e := by
        have := hcc
        rw [hg] at this
        simpa using this
      have h2 : (c1 : ℚ) = c2 := mul_right_cancel₀ (quantum_ne_zero e) h1
      exact_mod_cast h2
    have hcf' : allEq codes = false := by
      simp only [collapseFree, Bool.not_eq_true'] at hcf
      exact hcf
    have hall2 : allEq (codes.map g) = false := by
      rw [allEq_map_inj g hginj]
      exact hcf'
    have hlen2 : (codes.map g).length = cols := by
      rw [List.length_map, hcodes, List.length_map]
      exact hlen
    have hne2 : codes.map g ≠ [] := by
      intro h0
      rw [h0] at hlen2
      simp at hlen2
      omega
    have hnonneg : ∀ c ∈ codes, 0 ≤ c := by
      intro c hcmem
      rcases List.mem_map.mp hcmem with ⟨v, hv, rfl⟩
      exact quantize_nonneg e base v (rowMin_le row v hv)
    have hbase_mem : base ∈ codes.map g := by
      refine List.mem_map.mpr ⟨0, ?_, by simp [hg]⟩
      refine List.mem_map.mpr ⟨base, rowMin_mem row hne, quantize_base e base⟩
    have hbase_le : ∀ x ∈ codes.map g, base ≤ x := by
      intro x hx
      rcases List.mem_map.mp hx with ⟨c, hcmem, rfl⟩
      have h0 : (0 : ℚ) ≤ (c : ℚ) * quantum e :=
        mul_nonneg (by exact_mod_cast hnonneg c hcmem) (quantum_pos e).le
      rw [hg]
      dsimp only
      linarith
    have hmin2 : rowMin (codes.map g) = base :=
      le_antisymm (rowMin_le _ base hbase_mem) (hbase_le _ (rowMin_mem _ hne2))
    have hquant2 : (codes.map g).map (quantize e (rowMin (codes.map g))) = codes := by
      rw [hmin2, List.map_map]
      have : (quantize e base ∘ g) = id := by
        funext c
        rw [Function.comp_apply, hg]
        exact quantize_shift e base c
      rw [this, List.map_id]
    rw [encodeRow_normal_char mdi e (codes.map g) hne2 hdm hall2, hquant2, hmin2, ← hb]
    rw [if_neg hov]

/-- Field-level decode of an encoded row list, with the per-cell error
bound carried across all rows. -/
theorem field_decode (mdi : ℚ) (e : ℤ) (cols : ℕ) (hc : 0 < cols)
    (L : List (List ℚ)) (recs : List RowRecord)
    (hlen : ∀ r ∈ L, r.length = cols) (hnm : ∀ r ∈ L, ∀ v ∈ r, v ≠ mdi)
    (hmap : List.Forall₂ (fun row rec => encodeRow mdi e row = .ok rec) L recs) :
    ∃ D, mapE (decodeRow mdi e cols) recs = .ok D ∧
      List.Forall₂ (fun rec d => decodeRow mdi e cols rec = .ok d) recs D ∧
      List.Forall₂ (List.Forall₂ fun a b => |b - a| ≤ quantum (e - 1)) L D := by
  induction L generalizing recs with
  | nil =>
    cases hmap
    exact ⟨[], rfl, .nil, .nil⟩
  | cons row L2 ih =>
    rcases List.forall₂_cons_left_iff.mp hmap with ⟨rec, recs2, hrow, hrest, rfl⟩
    obtain ⟨d, hd, hbound⟩ := encodeRow_decodeRow mdi e row cols
      (hlen row (List.mem_cons_self row L2)) hc
      (hnm row (List.mem_cons_self row L2)) rec hrow
    obtain ⟨D, hD, hF1, hF2⟩ := ih recs2
      (fun r hr => hlen r (List.mem_cons_of_mem row hr))
      (fun r hr => hnm r (List.mem_cons_of_mem row hr)) hrest
    refine ⟨d :: D, ?_, .cons hd hF1, .cons hbound hF2⟩
    rw [mapE, hd, hD]

/-- Field-level re-encode stability across all rows. -/
theorem field_reencode (mdi : ℚ) (e : ℤ) (cols : ℕ) (hc : 0 < cols)
    (L : List (List ℚ)) (recs : List RowRecord) (D : List (List ℚ))
    (hlen : ∀ r ∈ L, r.length = cols) (hnm : ∀ r ∈ L, ∀ v ∈ r, v ≠ mdi)
    (hmap : List.Forall₂ (fun row rec => encodeRow mdi e row = .ok rec) L recs)
    (hdec : List.Forall₂ (fun rec d => decodeRow mdi e cols rec = .ok d) recs D)
    (hdm : ∀ r ∈ D, ∀ v ∈ r, v ≠ mdi) (hcf : ∀ rec ∈ recs, collapseFree rec = true) :
    mapE (encodeRow mdi e) D = .ok recs := by
  induction L generalizing recs D with
  | nil =>
    cases hmap
    cases hdec
    rfl
  | cons row L2 ih =>
    rcases List.forall₂_cons_left_iff.mp hmap with ⟨rec, recs2, hrow, hrest, rfl⟩
    rcases List.forall₂_cons_left_iff.mp hdec with ⟨d, D2, hd, hdrest, rfl⟩
    have hB := decodeRow_encodeRow mdi e row cols
      (hlen row (List.mem_cons_self row L2)) hc
      (hnm row (List.mem_cons_self row L2)) rec d hrow hd
      (hdm d (List.mem_cons_self d D2)) (hcf rec (List.mem_cons_self rec recs2))
    have hIH := ih recs2 D2 (fun r hr => hlen r (List.mem_cons_of_mem row hr))
      (fun r hr => hnm r (List.mem_cons_of_mem row hr)) hrest hdrest
      (fun r hr => hdm r (List.mem_cons_of_mem d hr))
      (fun r hr => hcf r (List.mem_cons_of_mem rec hr))
    rw [mapE, hB, hIH]

/-- Rows produced by a successful record-wise decode all have the declared
column count. -/
theorem forall₂_decode_lengths (mdi : ℚ) (e : ℤ) (cols : ℕ)
    (recs : List RowRecord) (D : List (List ℚ))
    (hF : List.Forall₂ (fun rec d => decodeRow mdi e cols rec = .ok d) recs D) :
    ∀ r ∈ D, r.length = cols := by
  induction hF with
  | nil => simp
  | cons hab hrest ih =>
    intro r hrD
    rcases List.mem_cons.mp hrD with rfl | hmem
    · exact decodeRow_length mdi e cols _ r hab
    · exact ih r hmem

/-- C1 (amended): for every field with positive dimensions and no missing
values whose encode succeeds, decoding the encoding succeeds and reproduces
every cell to within `±2^(e-1)` of the original; and, provided no decoded
cell collides with `mdi` and no normal row's codes collapsed to a single
repeated value, re-encoding the decoded field at the same accuracy yields a
packed stream identical to the first. -/
theorem claim1_roundtrip (flat : List ℚ) (cols rows : ℕ) (e : ℤ) (mdi : ℚ) (s : PackedStream)
    (hnm : ∀ v ∈ flat, v ≠ mdi)
    (henc : cmps_all flat cols rows e mdi = .ok s) :
    ∃ D, xpnd_all s mdi = .ok D ∧
      List.Forall₂ (List.Forall₂ fun a b => |b - a| ≤ quantum (e - 1))
        (chunkN rows cols flat) D ∧
      ((∀ r ∈ D, ∀ v ∈ r, v ≠ mdi) → (∀ rec ∈ s.records, collapseFree rec = true) →
        cmps_all D.flatten cols rows e mdi = .ok s) := by
  unfold cmps_all at henc
  by_cases hcond : 0 < cols ∧ 0 < rows ∧ flat.length = rows * cols
  case neg =>
    rw [if_neg hcond] at henc
    cases henc
  rw [if_pos hcond] at henc
  obtain ⟨hc, hr, hflat⟩ := hcond
  cases hmapE : mapE (encodeRow mdi e) (chunkN rows cols flat) with
  | error er =>
    rw [hmapE] at henc
    cases henc
  | ok recs =>
    rw [hmapE] at henc
    simp only [Except.ok.injEq] at henc
    subst henc
    have hLlen : ∀ r ∈ chunkN rows cols flat, r.length = cols :=
      chunkN_row_length rows cols flat hflat
    have hLnm : ∀ r ∈ chunkN rows cols flat, ∀ v ∈ r, v ≠ mdi :=
      fun r hr2 v hv => hnm v (chunkN_subset rows cols flat r hr2 v hv)
    have hmapF := (mapE_ok_iff (encodeRow mdi e) (chunkN rows cols flat) recs).mp hmapE
    obtain ⟨D, hD, hF1, hF2⟩ := field_decode mdi e cols hc _ recs hLlen hLnm hmapF
    have hreclen : recs.length = rows := by
      rw [← hmapF.length_eq, chunkN_length]
    refine ⟨D, ?_, hF2, ?_⟩
    · unfold xpnd_all
      rw [if_pos hreclen]
      exact hD
    · intro hdm hcf
      have hDenc := field_reencode mdi e cols hc _ recs D hLlen hLnm hmapF hF1 hdm hcf
      have hDlen : ∀ r ∈ D, r.length = cols := forall₂_decode_lengths mdi e cols recs D hF1
      have hDn : D.length = rows := by
        rw [← hF1.length_eq, hreclen]
      have hjoin : D.flatten.length = rows * cols := by
        rw [flatten_length_uniform cols D hDlen, hDn]
      unfold cmps_all
      rw [if_pos ⟨hc, hr, hjoin⟩, chunkN_of_flatten rows cols D hDn hDlen, hDenc]

/-- C1 counterexample: the 1×2 field `[0, 1]` with `e = 2` (quantum 4) and
`mdi = -9999` has no missing values and encodes to a normal record with codes
`[0, 0]`; decoding gives the constant row `[0, 0]`, and re-encoding that
decoded field at the same accuracy emits a constant record — a different
packed stream, so the bit-exact re-encode half of the claim fails. -/
theorem claim1_counterexample :
    (∀ v ∈ [(0 : ℚ), 1], v ≠ (-9999 : ℚ)) ∧
    cmps_all [(0 : ℚ), 1] 2 1 2 (-9999) =
      .ok ⟨2, 2, 1, [.normal 0 false [0, 0] 0]⟩ ∧
    xpnd_all ⟨2, 2, 1, [.normal 0 false [0, 0] 0]⟩ (-9999) = .ok [[0, 0]] ∧
    cmps_all [(0 : ℚ), 0] 2 1 2 (-9999) = .ok ⟨2, 2, 1, [.const 0]⟩ ∧
    (⟨2, 2, 1, [.const 0]⟩ : PackedStream) ≠ ⟨2, 2, 1, [.normal 0 false [0, 0] 0]⟩ := by
  refine ⟨by norm_num, ?_, ?_, ?_, by decide⟩
  · have hEnc : encodeRow (-9999) 2 [(0 : ℚ), 1] = .ok (.normal 0 false [0, 0] 0) := by
      rw [encodeRow_normal_char (-9999) 2 [(0 : ℚ), 1] (by simp) (by norm_num)
        (by norm_num [allEq])]
      norm_num [rowMin, min_def, quantize, quantum, round_eq, widthFor, maxCode, bitWidth,
        bitLen, maxBits]
    unfold cmps_all
    rw [if_pos (by norm_num)]
    simp [chunkN, mapE, hEnc]
  · unfold xpnd_all
    rw [if_pos (by norm_num)]
    simp [mapE, decodeRow, decodeCell_plain]
  · have hEnc : encodeRow (-9999) 2 [(0 : ℚ), 0] = .ok (.const 0) := by
      rw [encodeRow_const_char (-9999) 2 [(0 : ℚ), 0] (by simp) (by norm_num)
        (by norm_num [allEq])]
      norm_num [quantum, round_eq]
    unfold cmps_all
    rw [if_pos (by norm_num)]
    simp [chunkN, mapE, hEnc]

theorem claim1_roundtrip_witness :
    ∃ D, xpnd_all ⟨2, 2, 1, [.normal 0 false [0, 1] 1]⟩ (-9999) = .ok D ∧
      List.Forall₂ (List.Forall₂ fun a b => |b - a| ≤ quantum (2 - 1))
        (chunkN 1 2 [(0 : ℚ), 4]) D ∧
      ((∀ r ∈ D, ∀ v ∈ r, v ≠ (-9999 : ℚ)) →
        (∀ rec ∈ (⟨2, 2, 1, [.normal 0 false [0, 1] 1]⟩ : PackedStream).records,
          collapseFree rec = true) →
        cmps_all D.flatten 2 1 2 (-9999) = .ok ⟨2, 2, 1, [.normal 0 false [0, 1] 1]⟩) :=
  claim1_roundtrip [(0 : ℚ), 4] 2 1 2 (-9999) ⟨2, 2, 1, [.normal 0 false [0, 1] 1]⟩
    (by norm_num)
    (by
      have hEnc : encodeRow (-9999) 2 [(0 : ℚ), 4] = .ok (.normal 0 false [0, 1] 1) := by
        rw [encodeRow_normal_char (-9999) 2 [(0 : ℚ), 4] (by simp) (by norm_num)
          (by norm_num [allEq])]
        norm_num [rowMin, min_def, quantize, quantum, round_eq, widthFor, maxCode, bitWidth,
          bitLen, maxBits]
      unfold cmps_all
      rw [if_pos (by norm_num)]
      simp [chunkN, mapE, hEnc])
